import Mathlib

/-!
Verification development for the Tetrament repository: a Delaunay
tetrahedralizer (Bowyer-Watson) and an XPBD softbody simulator.

Host-side floating point values are modelled as exact rationals (`V3`);
GPU-kernel quantities that involve square roots (lengths, distances,
tet quality) live in `ℝ` (`VR`), with `Real.sqrt` standing for the
runtime `sqrt` / `length` / `distanceTo` operations.
-/

set_option maxHeartbeats 1000000

/-- A 3-vector with exact rational components, modelling a host-side
`THREE.Vector3` whose float components we treat as exact values. -/
structure V3 where
  x : ℚ
  y : ℚ
  z : ℚ
deriving DecidableEq

namespace V3

def sub (a b : V3) : V3 := ⟨a.x - b.x, a.y - b.y, a.z - b.z⟩

def add (a b : V3) : V3 := ⟨a.x + b.x, a.y + b.y, a.z + b.z⟩

def smul (q : ℚ) (a : V3) : V3 := ⟨q * a.x, q * a.y, q * a.z⟩

def dot (a b : V3) : ℚ := a.x * b.x + a.y * b.y + a.z * b.z

def cross (a b : V3) : V3 :=
  ⟨a.y * b.z - a.z * b.y, a.z * b.x - a.x * b.z, a.x * b.y - a.y * b.x⟩

def normSq (a : V3) : ℚ := a.x * a.x + a.y * a.y + a.z * a.z

def zero : V3 := ⟨0, 0, 0⟩

end V3

/-- Real Euclidean length of a rational vector: `v.length()` in the source. -/
noncomputable def V3.len (a : V3) : ℝ := Real.sqrt (a.normSq : ℝ)

/-- Real distance between two rational points: `a.distanceTo(b)` in the source. -/
noncomputable def V3.distTo (a b : V3) : ℝ := (a.sub b).len

/-- A 3-vector with real components, for quantities produced by kernels
(normalised gradients, scaled corrections) that leave the rationals. -/
structure VR where
  x : ℝ
  y : ℝ
  z : ℝ

namespace VR

noncomputable def sub (a b : VR) : VR := ⟨a.x - b.x, a.y - b.y, a.z - b.z⟩

noncomputable def add (a b : VR) : VR := ⟨a.x + b.x, a.y + b.y, a.z + b.z⟩

noncomputable def smul (r : ℝ) (a : VR) : VR := ⟨r * a.x, r * a.y, r * a.z⟩

noncomputable def divs (a : VR) (r : ℝ) : VR := ⟨a.x / r, a.y / r, a.z / r⟩

noncomputable def dot (a b : VR) : ℝ := a.x * b.x + a.y * b.y + a.z * b.z

noncomputable def cross (a b : VR) : VR :=
  ⟨a.y * b.z - a.z * b.y, a.z * b.x - a.x * b.z, a.x * b.y - a.y * b.x⟩

noncomputable def normSq (a : VR) : ℝ := a.x * a.x + a.y * a.y + a.z * a.z

noncomputable def zero : VR := ⟨0, 0, 0⟩

end VR

theorem vr_ext_iff {a b : VR} : a = b ↔ a.x = b.x ∧ a.y = b.y ∧ a.z = b.z := by
  constructor
  · intro h; subst h; exact ⟨rfl, rfl, rfl⟩
  · rcases a with ⟨ax, ay, az⟩
    rcases b with ⟨bx, by', bz⟩
    rintro ⟨h1, h2, h3⟩
    simp only at h1 h2 h3
    subst h1; subst h2; subst h3
    rfl

/-- Real Euclidean length (`length(v)` in the TSL kernels). -/
noncomputable def VR.len (a : VR) : ℝ := Real.sqrt a.normSq

/-- Real distance (`a.distance(b)` in the TSL kernels). -/
noncomputable def VR.distTo (a b : VR) : ℝ := (a.sub b).len

/-- Coercion of an exact rational vector into the real-valued world. -/
def V3.toR (a : V3) : VR := ⟨(a.x : ℝ), (a.y : ℝ), (a.z : ℝ)⟩

theorem vr_normSq_nonneg (a : VR) : 0 ≤ a.normSq := by
  unfold VR.normSq
  nlinarith [sq_nonneg a.x, sq_nonneg a.y, sq_nonneg a.z]

theorem vr_len_nonneg (a : VR) : 0 ≤ a.len := Real.sqrt_nonneg _

theorem v3_normSq_nonneg (a : V3) : 0 ≤ a.normSq := by
  unfold V3.normSq
  nlinarith [sq_nonneg a.x, sq_nonneg a.y, sq_nonneg a.z]

theorem v3_len_nonneg (a : V3) : 0 ≤ a.len := Real.sqrt_nonneg _

/-! ## Circumcentre and the Delaunay violation test
(`src/lib/utils/math.js` `getCircumCenter`, used by
`Tetrahedralizer.createTetIds` during cavity flood-fill). -/

/-- The (doubled) determinant computed inside `getCircumCenter`. -/
def circumDet (p0 p1 p2 p3 : V3) : ℚ :=
  let b := p1.sub p0
  let c := p2.sub p0
  let d := p3.sub p0
  2 * (b.x * (c.y * d.z - c.z * d.y)
     - b.y * (c.x * d.z - c.z * d.x)
     + b.z * (c.x * d.y - c.y * d.x))

/-- `getCircumCenter(p0,p1,p2,p3)` from `src/lib/utils/math.js`: returns
`p0` when the determinant is degenerate (`|det| < 1e-10`), otherwise
`p0 + (cd·|b|² + db·|c|² + bc·|d|²)/det`. -/
def getCircumCenter (p0 p1 p2 p3 : V3) : V3 :=
  let b := p1.sub p0
  let c := p2.sub p0
  let d := p3.sub p0
  let det := circumDet p0 p1 p2 p3
  if |det| < 1 / 10000000000 then p0
  else
    let cd := V3.smul (b.dot b) (c.cross d)
    let db := V3.smul (c.dot c) (d.cross b)
    let bc := V3.smul (d.dot d) (b.cross c)
    p0.add (V3.smul (1 / det) ((cd.add db).add bc))

/-- The circumradius as computed in `createTetIds`:
`r = verts[id0].distanceTo(c)`. -/
noncomputable def circumRadiusOf (p0 p1 p2 p3 : V3) : ℝ :=
  p0.distTo (getCircumCenter p0 p1 p2 p3)

/-- The Delaunay violation test of the cavity flood-fill in
`Tetrahedralizer.createTetIds`: the inserted point `p` violates the
tet `(p0,p1,p2,p3)` when `p.distanceTo(c) < r`. -/
noncomputable def delaunayViolates (p p0 p1 p2 p3 : V3) : Prop :=
  p.distTo (getCircumCenter p0 p1 p2 p3) < circumRadiusOf p0 p1 p2 p3

/-- C6: for every tet whose circumsphere determinant satisfies
`|det| < 1e-10`, the degenerate branch of `getCircumCenter` returns `p0`,
the radius used by the flood-fill is `0`, and the Delaunay violation test
is false for every inserted point, so the tet is never added to the
cavity for that reason. -/
theorem degenerate_circumsphere_never_violates
    (p0 p1 p2 p3 : V3) (h : |circumDet p0 p1 p2 p3| < 1 / 10000000000) :
    getCircumCenter p0 p1 p2 p3 = p0 ∧
    circumRadiusOf p0 p1 p2 p3 = 0 ∧
    ∀ p : V3, ¬ delaunayViolates p p0 p1 p2 p3 := by
  have hc : getCircumCenter p0 p1 p2 p3 = p0 := by
    unfold getCircumCenter
    simp only [if_pos h]
  have hr : circumRadiusOf p0 p1 p2 p3 = 0 := by
    unfold circumRadiusOf
    rw [hc]
    unfold V3.distTo V3.len V3.sub V3.normSq
    simp
  refine ⟨hc, hr, ?_⟩
  intro p hviol
  unfold delaunayViolates at hviol
  rw [hr] at hviol
  have : 0 ≤ p.distTo (getCircumCenter p0 p1 p2 p3) := Real.sqrt_nonneg _
  linarith

/-- Witness for C6 at a concrete degenerate (coplanar) tet. -/
theorem degenerate_circumsphere_never_violates_witness :
    getCircumCenter ⟨0,0,0⟩ ⟨1,0,0⟩ ⟨0,1,0⟩ ⟨1,1,0⟩ = ⟨0,0,0⟩ ∧
    circumRadiusOf ⟨0,0,0⟩ ⟨1,0,0⟩ ⟨0,1,0⟩ ⟨1,1,0⟩ = 0 ∧
    ∀ p : V3, ¬ delaunayViolates p ⟨0,0,0⟩ ⟨1,0,0⟩ ⟨0,1,0⟩ ⟨1,1,0⟩ :=
  degenerate_circumsphere_never_violates ⟨0,0,0⟩ ⟨1,0,0⟩ ⟨0,1,0⟩ ⟨1,1,0⟩
    (by norm_num [circumDet, V3.sub])

/-! ## Tet quality and the post-filter of `createTetIds`
(`src/lib/utils/math.js` `tetQuality`, `tetVolume`;
`src/lib/tetrahedralize/Tetrahedralizer.js` lines 370-409). -/

/-- `tetVolume(p0,p1,p2,p3)` from `src/lib/utils/math.js`: signed volume
`(p1-p0) · ((p2-p0) × (p3-p0)) / 6`. -/
def tetVolume (p0 p1 p2 p3 : V3) : ℚ :=
  (p1.sub p0).dot ((p2.sub p0).cross (p3.sub p0)) / 6

/-- The mean squared edge length `ms` computed inside `tetQuality`
(the six `sᵢ*sᵢ` are the exact squared norms of the edge vectors). -/
def tetMs (p0 p1 p2 p3 : V3) : ℚ :=
  ((p1.sub p0).normSq + (p2.sub p0).normSq + (p3.sub p0).normSq +
   (p2.sub p1).normSq + (p3.sub p2).normSq + (p1.sub p3).normSq) / 6

/-- `tetQuality(p0,p1,p2,p3)` from `src/lib/utils/math.js`:
`12/√2 · vol / rms³` with `rms = √ms`, and `0` when `rms < 1e-10`.
The `vol` computed inside `tetQuality` coincides with `tetVolume`. -/
noncomputable def tetQuality (p0 p1 p2 p3 : V3) : ℝ :=
  if Real.sqrt ((tetMs p0 p1 p2 p3 : ℝ)) < 1 / 10000000000 then 0
  else 12 / Real.sqrt 2 * (tetVolume p0 p1 p2 p3 : ℝ) /
    (Real.sqrt ((tetMs p0 p1 p2 p3 : ℝ)) * Real.sqrt ((tetMs p0 p1 p2 p3 : ℝ)) *
     Real.sqrt ((tetMs p0 p1 p2 p3 : ℝ)))

/-- The per-tet retention decision of the post-filter in
`Tetrahedralizer.createTetIds` (lines 370-407): a tet is kept when it is
not deleted, touches no super-tet vertex, its quality is not below
`minQuality` (note: the signed quality, `quality < this.minQuality`),
and the BVH containment test passes. -/
noncomputable def postFilterKeeps (minQuality : ℝ)
    (deleted hasSuperVert insideOk : Bool) (p0 p1 p2 p3 : V3) : Prop :=
  deleted = false ∧ hasSuperVert = false ∧
  ¬ (tetQuality p0 p1 p2 p3 < minQuality) ∧ insideOk = true

theorem sqrt_two_not_small : ¬ (Real.sqrt 2 < 1 / 10000000000) := by
  have h1 : (1 : ℝ) ≤ Real.sqrt 2 := by
    rw [show (1 : ℝ) = Real.sqrt 1 by rw [Real.sqrt_one]]
    exact Real.sqrt_le_sqrt (by norm_num)
  intro h
  linarith

/-- For a tet with `ms = 2` (all six squared edges equal to 2, as for a
regular tet inscribed in the unit cube) the quality evaluates to three
times the signed volume. -/
theorem tetQuality_eq_of_ms_two (p0 p1 p2 p3 : V3)
    (hms : tetMs p0 p1 p2 p3 = 2) :
    tetQuality p0 p1 p2 p3 = 3 * (tetVolume p0 p1 p2 p3 : ℝ) := by
  unfold tetQuality
  rw [hms]
  push_cast
  rw [if_neg sqrt_two_not_small]
  have hss : Real.sqrt 2 * Real.sqrt 2 = 2 :=
    Real.mul_self_sqrt (by norm_num)
  have hne : Real.sqrt 2 ≠ 0 := by
    intro h
    rw [h] at hss
    norm_num at hss
  rw [show Real.sqrt 2 * Real.sqrt 2 * Real.sqrt 2 = 2 * Real.sqrt 2 from by
    rw [hss]]
  field_simp
  linear_combination (-6 * ((tetVolume p0 p1 p2 p3 : ℝ))) * hss

/-- C1 (amended): the post-filter retains by signed quality
(`quality < minQuality` drops), not by `|quality|`; consequently, for a
positive `minQuality`, every kept tet has `minQuality ≤ quality`, hence
`minQuality ≤ |quality|` and a strictly positive signed volume. -/
theorem post_filter_signed_quality (mq : ℝ) (deleted hasSuperVert insideOk : Bool)
    (p0 p1 p2 p3 : V3) (hmq : 0 < mq)
    (hkeep : postFilterKeeps mq deleted hasSuperVert insideOk p0 p1 p2 p3) :
    mq ≤ tetQuality p0 p1 p2 p3 ∧
    mq ≤ |tetQuality p0 p1 p2 p3| ∧
    0 < (tetVolume p0 p1 p2 p3 : ℝ) := by
  obtain ⟨-, -, hq, -⟩ := hkeep
  have hQ : mq ≤ tetQuality p0 p1 p2 p3 := not_lt.mp hq
  refine ⟨hQ, le_trans hQ (le_abs_self _), ?_⟩
  by_contra hvol
  push_neg at hvol
  have hQ0 : tetQuality p0 p1 p2 p3 ≤ 0 := by
    unfold tetQuality
    by_cases hb : Real.sqrt ((tetMs p0 p1 p2 p3 : ℝ)) < 1 / 10000000000
    · rw [if_pos hb]
    · rw [if_neg hb]
      have h1 : (0 : ℝ) ≤ 12 / Real.sqrt 2 := by positivity
      have h2 : (tetVolume p0 p1 p2 p3 : ℝ) ≤ 0 := hvol
      have h3 : (0 : ℝ) ≤ Real.sqrt ((tetMs p0 p1 p2 p3 : ℝ)) *
          Real.sqrt ((tetMs p0 p1 p2 p3 : ℝ)) * Real.sqrt ((tetMs p0 p1 p2 p3 : ℝ)) := by
        have := Real.sqrt_nonneg ((tetMs p0 p1 p2 p3 : ℝ))
        positivity
      exact div_nonpos_iff.mpr (Or.inr ⟨mul_nonpos_iff.mpr (Or.inl ⟨h1, h2⟩), h3⟩)
  linarith

/-- Witness for C1 (amended) at a concrete regular tet of quality 1,
kept by the filter with `minQuality = 0.001`. -/
theorem post_filter_signed_quality_witness :
    (1 / 1000 : ℝ) ≤ tetQuality ⟨0,0,0⟩ ⟨1,1,0⟩ ⟨0,1,1⟩ ⟨1,0,1⟩ ∧
    (1 / 1000 : ℝ) ≤ |tetQuality ⟨0,0,0⟩ ⟨1,1,0⟩ ⟨0,1,1⟩ ⟨1,0,1⟩| ∧
    0 < ((tetVolume ⟨0,0,0⟩ ⟨1,1,0⟩ ⟨0,1,1⟩ ⟨1,0,1⟩ : ℚ) : ℝ) :=
  post_filter_signed_quality (1 / 1000) false false true
    ⟨0,0,0⟩ ⟨1,1,0⟩ ⟨0,1,1⟩ ⟨1,0,1⟩ (by norm_num)
    ⟨rfl, rfl, by
      rw [tetQuality_eq_of_ms_two ⟨0,0,0⟩ ⟨1,1,0⟩ ⟨0,1,1⟩ ⟨1,0,1⟩
        (by norm_num [tetMs, V3.sub, V3.normSq])]
      norm_num [tetVolume, V3.sub, V3.dot, V3.cross], rfl⟩

/-- C1 counterexample: an inverted regular tet has quality exactly `-1`,
so `|quality| = 1 ≥ minQuality = 0.001`, yet the post-filter drops it
(it is not kept although it is not deleted, touches no super-tet vertex
and passes containment) — retention is decided by the signed quality,
not by `|quality|`. -/
theorem post_filter_abs_quality_counterexample :
    (1 / 1000 : ℝ) ≤ |tetQuality ⟨0,0,0⟩ ⟨1,1,0⟩ ⟨1,0,1⟩ ⟨0,1,1⟩| ∧
    ¬ postFilterKeeps (1 / 1000 : ℝ) false false true
        ⟨0,0,0⟩ ⟨1,1,0⟩ ⟨1,0,1⟩ ⟨0,1,1⟩ := by
  have hQ : tetQuality ⟨0,0,0⟩ ⟨1,1,0⟩ ⟨1,0,1⟩ ⟨0,1,1⟩ = -1 := by
    rw [tetQuality_eq_of_ms_two ⟨0,0,0⟩ ⟨1,1,0⟩ ⟨1,0,1⟩ ⟨0,1,1⟩
      (by norm_num [tetMs, V3.sub, V3.normSq])]
    norm_num [tetVolume, V3.sub, V3.dot, V3.cross]
  constructor
  · rw [hQ]; norm_num
  · intro hk
    obtain ⟨-, -, hq, -⟩ := hk
    rw [hQ] at hq
    exact hq (by norm_num)

/-! ## Super-tetrahedron placement
(`Tetrahedralizer.tetrahedralize` lines 466-500 and
`Tetrahedralizer.tetrahedralizePoints` lines 563-583). The `randEps`
perturbation draws from `Math.random` and is not modelled; the input
list stands for the already-perturbed vertex list. -/

/-- First super-tet vertex pushed by the source: `(-s, 0, -s)`. -/
noncomputable def superTetVert0 (s : ℝ) : VR := ⟨-s, 0, -s⟩

/-- Second super-tet vertex pushed by the source: `(s, 0, -s)`. -/
noncomputable def superTetVert1 (s : ℝ) : VR := ⟨s, 0, -s⟩

/-- Third super-tet vertex pushed by the source: `(0, s, s)`. -/
noncomputable def superTetVert2 (s : ℝ) : VR := ⟨0, s, s⟩

/-- Fourth super-tet vertex pushed by the source: `(0, -s, s)`. -/
noncomputable def superTetVert3 (s : ℝ) : VR := ⟨0, -s, s⟩

/-- The four super-tetrahedron vertices appended with `s = 5 * radius`. -/
noncomputable def superTetVerts (s : ℝ) : List VR :=
  [superTetVert0 s, superTetVert1 s, superTetVert2 s, superTetVert3 s]

/-- Vector sum of a point list (the accumulation loop of
`tetrahedralizePoints`). -/
def sumV3 (l : List V3) : V3 := l.foldl V3.add V3.zero

/-- The centre computed by `tetrahedralizePoints`: the arithmetic mean
of the input points (`center.add(v)` then `divideScalar(length)`). -/
def tetPointsCenter (l : List V3) : V3 :=
  V3.smul (1 / (l.length : ℚ)) (sumV3 l)

/-- The bounding radius loop of both tetrahedralize entry points:
`radius = max(radius, v.distanceTo(center))` starting from `0`. -/
noncomputable def cloudRadius (l : List V3) (c : V3) : ℝ :=
  l.foldl (fun r v => max r (v.distTo c)) 0

/-- Membership in the convex hull of four points, as the set of convex
combinations of those points. -/
noncomputable def inConvexHull4 (a b c d p : VR) : Prop :=
  ∃ wa wb wc wd : ℝ, 0 ≤ wa ∧ 0 ≤ wb ∧ 0 ≤ wc ∧ 0 ≤ wd ∧
    wa + wb + wc + wd = 1 ∧
    p = ((VR.smul wa a).add (VR.smul wb b)).add
        ((VR.smul wc c).add (VR.smul wd d))

theorem foldl_max_dist_le_init (l : List V3) (c : V3) (init : ℝ) :
    init ≤ l.foldl (fun r v => max r (v.distTo c)) init := by
  induction l generalizing init with
  | nil => exact le_refl _
  | cons a t ih =>
      exact le_trans (le_max_left init (a.distTo c)) (ih (max init (a.distTo c)))

theorem mem_dist_le_foldl_max (l : List V3) (c : V3) (init : ℝ) (p : V3)
    (hp : p ∈ l) :
    p.distTo c ≤ l.foldl (fun r v => max r (v.distTo c)) init := by
  induction l generalizing init with
  | nil => cases hp
  | cons a t ih =>
      rcases List.mem_cons.mp hp with h | h
      · subst h
        exact le_trans (le_max_right init (p.distTo c))
          (foldl_max_dist_le_init t c (max init (p.distTo c)))
      · exact ih (max init (a.distTo c)) h

theorem sqrt_two_mul_sq (s : ℝ) (hs : 0 ≤ s) :
    Real.sqrt (2 * s ^ 2) = Real.sqrt 2 * s := by
  rw [Real.sqrt_mul (by norm_num : (0:ℝ) ≤ 2), Real.sqrt_sq hs]

theorem ball_in_super_hull (R : ℝ) (hR : 0 ≤ R) (p : VR)
    (hp : p.normSq ≤ R ^ 2) :
    inConvexHull4 (superTetVert0 (5 * R)) (superTetVert1 (5 * R))
      (superTetVert2 (5 * R)) (superTetVert3 (5 * R)) p := by
  unfold VR.normSq at hp
  by_cases hR0 : R = 0
  · subst hR0
    have hx : p.x = 0 := by nlinarith [sq_nonneg p.x, sq_nonneg p.y, sq_nonneg p.z]
    have hy : p.y = 0 := by nlinarith [sq_nonneg p.x, sq_nonneg p.y, sq_nonneg p.z]
    have hz : p.z = 0 := by nlinarith [sq_nonneg p.x, sq_nonneg p.y, sq_nonneg p.z]
    refine ⟨1/4, 1/4, 1/4, 1/4, by norm_num, by norm_num, by norm_num, by norm_num,
      by norm_num, ?_⟩
    unfold superTetVert0 superTetVert1 superTetVert2 superTetVert3 VR.smul VR.add
    rw [vr_ext_iff]
    refine ⟨?_, ?_, ?_⟩ <;> simp [hx, hy, hz]
  · have hRpos : 0 < R := lt_of_le_of_ne hR (Ne.symm hR0)
    have hs : (0 : ℝ) < 5 * R := by linarith
    have hb1 : 2 * p.x + p.z ≤ 5 * R := by
      have h1 : (2 * p.x + p.z) ^ 2 ≤ 5 * R ^ 2 := by
        nlinarith [sq_nonneg (p.x - 2 * p.z), sq_nonneg p.y]
      nlinarith [h1, hRpos, sq_nonneg (2 * p.x + p.z - 5 * R)]
    have hb2 : -(2 * p.x) + p.z ≤ 5 * R := by
      have h1 : (-(2 * p.x) + p.z) ^ 2 ≤ 5 * R ^ 2 := by
        nlinarith [sq_nonneg (p.x + 2 * p.z), sq_nonneg p.y]
      nlinarith [h1, hRpos, sq_nonneg (-(2 * p.x) + p.z - 5 * R)]
    have hb3 : -(2 * p.y) - p.z ≤ 5 * R := by
      have h1 : (-(2 * p.y) - p.z) ^ 2 ≤ 5 * R ^ 2 := by
        nlinarith [sq_nonneg (p.y - 2 * p.z), sq_nonneg p.x]
      nlinarith [h1, hRpos, sq_nonneg (-(2 * p.y) - p.z - 5 * R)]
    have hb4 : 2 * p.y - p.z ≤ 5 * R := by
      have h1 : (2 * p.y - p.z) ^ 2 ≤ 5 * R ^ 2 := by
        nlinarith [sq_nonneg (p.y + 2 * p.z), sq_nonneg p.x]
      nlinarith [h1, hRpos, sq_nonneg (2 * p.y - p.z - 5 * R)]
    refine ⟨(5 * R - p.z - 2 * p.x) / (4 * (5 * R)),
            (5 * R - p.z + 2 * p.x) / (4 * (5 * R)),
            (5 * R + p.z + 2 * p.y) / (4 * (5 * R)),
            (5 * R + p.z - 2 * p.y) / (4 * (5 * R)),
            ?_, ?_, ?_, ?_, ?_, ?_⟩
    · apply div_nonneg _ (by linarith)
      linarith
    · apply div_nonneg _ (by linarith)
      linarith
    · apply div_nonneg _ (by linarith)
      linarith
    · apply div_nonneg _ (by linarith)
      linarith
    · field_simp
      ring
    · unfold superTetVert0 superTetVert1 superTetVert2 superTetVert3 VR.smul VR.add
      rw [vr_ext_iff]
      refine ⟨?_, ?_, ?_⟩ <;> (field_simp; ring)

/-- C2 (amended): with `s = 5 * radius`, every appended super-tet vertex
lies at distance `5·√2·R` from the ORIGIN (the placement is not relative
to the point-cloud centre); the radius bounds the distance of every
input point to the centre; and whenever the centre is the origin, the
whole input point set lies inside the convex hull of the four super-tet
vertices. -/
theorem super_tet_distance_and_containment (pts : List V3) (c : V3) :
    0 ≤ cloudRadius pts c ∧
    (∀ p ∈ pts, p.distTo c ≤ cloudRadius pts c) ∧
    (∀ v ∈ superTetVerts (5 * cloudRadius pts c),
      v.distTo VR.zero = 5 * Real.sqrt 2 * cloudRadius pts c) ∧
    (c = ⟨0, 0, 0⟩ → ∀ p ∈ pts,
      inConvexHull4 (superTetVert0 (5 * cloudRadius pts c))
        (superTetVert1 (5 * cloudRadius pts c))
        (superTetVert2 (5 * cloudRadius pts c))
        (superTetVert3 (5 * cloudRadius pts c)) p.toR) := by
  have hR0 : 0 ≤ cloudRadius pts c := foldl_max_dist_le_init pts c 0
  have hs0 : 0 ≤ 5 * cloudRadius pts c := by linarith
  refine ⟨hR0, fun p hp => mem_dist_le_foldl_max pts c 0 p hp, ?_, ?_⟩
  · intro v hv
    have key : ∀ a b z : ℝ, a * a + b * b + z * z = 2 * (5 * cloudRadius pts c) ^ 2 →
        Real.sqrt (a * a + b * b + z * z) = 5 * Real.sqrt 2 * cloudRadius pts c := by
      intro a b z h
      rw [h, sqrt_two_mul_sq _ hs0]
      ring
    simp only [superTetVerts, List.mem_cons, List.mem_singleton] at hv
    rcases hv with rfl | rfl | rfl | rfl | h
    · unfold superTetVert0 VR.distTo VR.len VR.sub VR.normSq VR.zero
      exact key _ _ _ (by ring)
    · unfold superTetVert1 VR.distTo VR.len VR.sub VR.normSq VR.zero
      exact key _ _ _ (by ring)
    · unfold superTetVert2 VR.distTo VR.len VR.sub VR.normSq VR.zero
      exact key _ _ _ (by ring)
    · unfold superTetVert3 VR.distTo VR.len VR.sub VR.normSq VR.zero
      exact key _ _ _ (by ring)
    · cases h
  · intro hc p hp
    subst hc
    apply ball_in_super_hull _ hR0
    have hd : p.distTo ⟨0, 0, 0⟩ ≤ cloudRadius pts ⟨0, 0, 0⟩ :=
      mem_dist_le_foldl_max pts _ 0 p hp
    have hq0 : (0 : ℝ) ≤ ((p.sub ⟨0, 0, 0⟩).normSq : ℝ) := by
      exact_mod_cast v3_normSq_nonneg _
    have hsq : ((p.sub ⟨0, 0, 0⟩).normSq : ℝ) ≤ (cloudRadius pts ⟨0, 0, 0⟩) ^ 2 := by
      unfold V3.distTo V3.len at hd
      nlinarith [Real.sq_sqrt hq0, Real.sqrt_nonneg ((p.sub ⟨0, 0, 0⟩).normSq : ℝ), hd,
        foldl_max_dist_le_init pts (⟨0, 0, 0⟩ : V3) 0]
    have : (p.toR).normSq = ((p.sub ⟨0, 0, 0⟩).normSq : ℝ) := by
      unfold V3.toR VR.normSq V3.sub V3.normSq
      push_cast
      ring
    rw [this]
    exact hsq

/-- Concrete two-point cloud (already-perturbed coordinates) used to
refute the claimed centroid-distance property of the super-tet. -/
def ptsC2 : List V3 := [⟨3, 0, 4⟩, ⟨-3, 0, -4⟩]

/-- C2 counterexample: for the cloud `{(3,0,4), (-3,0,-4)}` the centre is
the origin and the bounding radius is `R = 5`, yet the first appended
super-tet vertex `(-25, 0, -25)` lies at distance `√1250 = 25·√2`, not
`5·R = 25`, from the centroid. -/
theorem super_tet_centroid_distance_counterexample :
    tetPointsCenter ptsC2 = ⟨0, 0, 0⟩ ∧
    cloudRadius ptsC2 (tetPointsCenter ptsC2) = 5 ∧
    VR.distTo (superTetVert0 (5 * cloudRadius ptsC2 (tetPointsCenter ptsC2)))
        ((tetPointsCenter ptsC2).toR) ≠
      5 * cloudRadius ptsC2 (tetPointsCenter ptsC2) := by
  have hcen : tetPointsCenter ptsC2 = ⟨0, 0, 0⟩ := by
    norm_num [ptsC2, tetPointsCenter, sumV3, List.foldl, V3.add, V3.zero, V3.smul,
      V3.mk.injEq]
  have d1 : V3.distTo ⟨3, 0, 4⟩ ⟨0, 0, 0⟩ = 5 := by
    unfold V3.distTo V3.len V3.sub V3.normSq
    push_cast
    norm_num
    rw [show (25 : ℝ) = 5 ^ 2 by norm_num]
    exact Real.sqrt_sq (by norm_num)
  have d2 : V3.distTo ⟨-3, 0, -4⟩ ⟨0, 0, 0⟩ = 5 := by
    unfold V3.distTo V3.len V3.sub V3.normSq
    push_cast
    norm_num
    rw [show (25 : ℝ) = 5 ^ 2 by norm_num]
    exact Real.sqrt_sq (by norm_num)
  have hrad : cloudRadius ptsC2 (tetPointsCenter ptsC2) = 5 := by
    rw [hcen]
    unfold cloudRadius ptsC2
    simp only [List.foldl]
    rw [d1, d2]
    rw [max_eq_right (by norm_num : (0:ℝ) ≤ 5), max_self]
  refine ⟨hcen, hrad, ?_⟩
  rw [hrad, hcen]
  have hdist : VR.distTo (superTetVert0 (5 * 5)) ((⟨0, 0, 0⟩ : V3).toR) =
      Real.sqrt 1250 := by
    unfold superTetVert0 VR.distTo VR.len VR.sub VR.normSq V3.toR
    push_cast
    norm_num
  rw [hdist]
  intro h
  have h2 : (Real.sqrt 1250) ^ 2 = 1250 := Real.sq_sqrt (by norm_num)
  rw [h] at h2
  norm_num at h2

/-! ## XPBD edge solve
(`kernels.solveEdges`, `src/lib/core/SoftbodySimulation.js` lines 526-572;
`edgeRelaxation = 0.25`). -/

/-- One invocation of the `solveEdges` kernel on one edge: given the two
endpoint objects' sizes, the endpoint inverse masses, positions, the
stored rest length and the uniforms `sdt` and `edgeCompliance`, returns
the (possibly updated) pair of endpoint positions. Guards in source
order: both sizes `≥ 0.0001`, `w = w0+w1 > 0`, and `len > 0.0001`;
`s = -C/(w+α)·0.25` with `α = edgeCompliance/(sdt·sdt)`, then
`pos0 += grad·(s·w0)`, `pos1 -= grad·(s·w1)`. -/
noncomputable def solveEdges (size0 size1 w0 w1 : ℝ) (pos0 pos1 : VR)
    (restLen sdt edgeCompliance : ℝ) : VR × VR :=
  if 0.0001 ≤ size0 ∧ 0.0001 ≤ size1 then
    if 0 < w0 + w1 then
      if 0.0001 < (pos0.sub pos1).len then
        (pos0.add (VR.smul
            (-((pos0.sub pos1).len - restLen) /
               (w0 + w1 + edgeCompliance / (sdt * sdt)) * 0.25 * w0)
            ((pos0.sub pos1).divs (pos0.sub pos1).len)),
         pos1.sub (VR.smul
            (-((pos0.sub pos1).len - restLen) /
               (w0 + w1 + edgeCompliance / (sdt * sdt)) * 0.25 * w1)
            ((pos0.sub pos1).divs (pos0.sub pos1).len)))
      else (pos0, pos1)
    else (pos0, pos1)
  else (pos0, pos1)

/-- The per-edge update claimed by the spec sentence, stated from the
spec's words for comparison with `solveEdges`: for an active edge with
`w = w0+w1 > 0`, `grad = (pos0-pos1)/‖pos0-pos1‖`, `C = ‖pos0-pos1‖ -
restLength`, `s = -C/(w + edgeCompliance/sdt²)`, and the Jacobi update
`pos0 += s·w0·grad·ω`, `pos1 -= s·w1·grad·ω` with `ω = 0.25`. -/
noncomputable def specEdgeUpdate (w0 w1 : ℝ) (pos0 pos1 : VR)
    (restLen sdt edgeCompliance : ℝ) : VR × VR :=
  (pos0.add (VR.smul
      (-((pos0.sub pos1).len - restLen) / (w0 + w1 + edgeCompliance / sdt ^ 2)
        * w0 * 0.25)
      ((pos0.sub pos1).divs (pos0.sub pos1).len)),
   pos1.sub (VR.smul
      (-((pos0.sub pos1).len - restLen) / (w0 + w1 + edgeCompliance / sdt ^ 2)
        * w1 * 0.25)
      ((pos0.sub pos1).divs (pos0.sub pos1).len)))

/-- C3 (amended): for an edge whose endpoint objects are both active and
whose inverse-mass sum is positive, the kernel realises exactly the
spec's XPBD update PROVIDED the current length exceeds `1e-4`; and when
`w = 0` or either object is inactive the positions are left unchanged. -/
theorem solve_edges_characterisation (size0 size1 w0 w1 : ℝ) (pos0 pos1 : VR)
    (restLen sdt edgeCompliance : ℝ) :
    (0.0001 ≤ size0 → 0.0001 ≤ size1 → 0 < w0 + w1 →
      0.0001 < (pos0.sub pos1).len →
      solveEdges size0 size1 w0 w1 pos0 pos1 restLen sdt edgeCompliance =
        specEdgeUpdate w0 w1 pos0 pos1 restLen sdt edgeCompliance) ∧
    (w0 + w1 = 0 ∨ size0 < 0.0001 ∨ size1 < 0.0001 →
      solveEdges size0 size1 w0 w1 pos0 pos1 restLen sdt edgeCompliance =
        (pos0, pos1)) := by
  constructor
  · intro h0 h1 hw hlen
    unfold solveEdges specEdgeUpdate
    rw [if_pos ⟨h0, h1⟩, if_pos hw, if_pos hlen]
    rw [Prod.mk.injEq]
    constructor
    · rw [vr_ext_iff]
      unfold VR.add VR.smul VR.divs
      refine ⟨?_, ?_, ?_⟩ <;> (simp only; ring)
    · rw [vr_ext_iff]
      unfold VR.sub VR.smul VR.divs
      refine ⟨?_, ?_, ?_⟩ <;> (simp only; ring)
  · intro h
    unfold solveEdges
    rcases h with h | h | h
    · by_cases hs : 0.0001 ≤ size0 ∧ 0.0001 ≤ size1
      · rw [if_pos hs, if_neg (by rw [h]; exact lt_irrefl 0)]
      · rw [if_neg hs]
    · rw [if_neg (by intro hc; linarith [hc.1])]
    · rw [if_neg (by intro hc; linarith [hc.2])]

theorem len_small_c3 : (VR.sub ⟨1/100000, 0, 0⟩ VR.zero).len = 1 / 100000 := by
  unfold VR.sub VR.zero VR.len VR.normSq
  simp only
  norm_num
  rw [show (10000000000 : ℝ) = 100000 ^ 2 by norm_num, Real.sqrt_sq (by norm_num)]
  norm_num

theorem len_five_c3 : (VR.sub ⟨3, 4, 0⟩ VR.zero).len = 5 := by
  unfold VR.sub VR.zero VR.len VR.normSq
  simp only
  norm_num
  rw [show (25 : ℝ) = 5 ^ 2 by norm_num]
  exact Real.sqrt_sq (by norm_num)

/-- C3 counterexample: both endpoint objects active and `w = 2 > 0`,
but with coincident-to-within-`1e-4` endpoints (length `1e-5`) the
kernel leaves the positions unchanged while the claimed formulas
prescribe a non-trivial update. -/
theorem solve_edges_length_guard_counterexample :
    (0.0001 : ℝ) ≤ 1 ∧ (0 : ℝ) < 1 + 1 ∧
    solveEdges 1 1 1 1 ⟨1/100000, 0, 0⟩ VR.zero 1 1 0 ≠
      specEdgeUpdate 1 1 ⟨1/100000, 0, 0⟩ VR.zero 1 1 0 := by
  refine ⟨by norm_num, by norm_num, ?_⟩
  have hcode : solveEdges 1 1 1 1 ⟨1/100000, 0, 0⟩ VR.zero 1 1 0 =
      ((⟨1/100000, 0, 0⟩ : VR), VR.zero) := by
    unfold solveEdges
    rw [if_pos ⟨by norm_num, by norm_num⟩, if_pos (by norm_num),
      if_neg (by rw [len_small_c3]; norm_num)]
  intro h
  rw [hcode] at h
  have hx := congrArg (fun q : VR × VR => q.1.x) h
  unfold specEdgeUpdate VR.add VR.smul VR.divs at hx
  simp only at hx
  rw [len_small_c3] at hx
  unfold VR.sub VR.zero at hx
  simp only at hx
  norm_num at hx

/-- Witness for C3 (amended) at a concrete active edge of length 5. -/
theorem solve_edges_characterisation_witness :
    solveEdges 1 1 1 1 ⟨3, 4, 0⟩ VR.zero 1 1 0 =
      specEdgeUpdate 1 1 ⟨3, 4, 0⟩ VR.zero 1 1 0 :=
  (solve_edges_characterisation 1 1 1 1 ⟨3, 4, 0⟩ VR.zero 1 1 0).1
    (by norm_num) (by norm_num) (by norm_num)
    (by rw [len_five_c3]; norm_num)

/-! ## Broadphase tet-tet response
(`kernels.solveCollisions`, `src/lib/core/SoftbodySimulation.js`
lines 753-811). -/

/-- Per-candidate contribution of one listed tet in `solveCollisions`:
`checkCollision` is cleared exactly when both tets share an object id
and the rest-pose initial positions are within squared distance
`1.5*1.5`; otherwise `dir = (cA-cB)/max(dist,0.0001)`,
`force = max(rA+rB-dist, 0)`, adding `(dir*force*0.5, force/(rA+rB))`
to `(diff, totalForce)`. -/
noncomputable def collisionPairContribution (objA objB : ℕ)
    (initA initB cA cB : VR) (rA rB : ℝ) : VR × ℝ :=
  if objA = objB ∧ ¬ (1.5 * 1.5 < (initB.sub initA).dot (initB.sub initA)) then
    (VR.zero, 0)
  else
    (VR.smul (max (rA + rB - cA.distTo cB) 0 * 0.5)
        ((cA.sub cB).divs (max (cA.distTo cB) 0.0001)),
     max (rA + rB - cA.distTo cB) 0 / (rA + rB))

/-- The per-pair push claimed by the spec sentence, stated from the
spec's words: skip exactly when same object and rest-pose distance at
most `1.5`; otherwise, when the centroid distance `d` is below
`rA + rB`, accumulate `0.5*(rA+rB-d)*(cA-cB)/d`. -/
noncomputable def specPairDiff (objA objB : ℕ)
    (initA initB cA cB : VR) (rA rB : ℝ) : VR :=
  if objA = objB ∧ initA.distTo initB ≤ 1.5 then VR.zero
  else if cA.distTo cB < rA + rB then
    VR.smul (0.5 * (rA + rB - cA.distTo cB)) ((cA.sub cB).divs (cA.distTo cB))
  else VR.zero

/-- The amended per-pair push: as `specPairDiff` but dividing by
`max(d, 0.0001)` as the source does. -/
noncomputable def specPairDiffAmended (objA objB : ℕ)
    (initA initB cA cB : VR) (rA rB : ℝ) : VR :=
  if objA = objB ∧ initA.distTo initB ≤ 1.5 then VR.zero
  else if cA.distTo cB < rA + rB then
    VR.smul (0.5 * (rA + rB - cA.distTo cB))
      ((cA.sub cB).divs (max (cA.distTo cB) 0.0001))
  else VR.zero

/-- One `addAssign` of `diff` to vertex slot `id`. -/
noncomputable def bump (diff : VR) (id : ℕ) (p : ℕ → VR) : ℕ → VR :=
  fun i => if i = id then (p i).add diff else p i

/-- The apply step of `solveCollisions` (lines 802-808): when
`totalForce > 0` the accumulated `diff` is added to the positions of the
four vertices of the current tet, in source order. -/
noncomputable def applyCollisionDiff (pos : ℕ → VR) (id0 id1 id2 id3 : ℕ)
    (diff : VR) (totalForce : ℝ) : ℕ → VR :=
  if 0 < totalForce then
    bump diff id3 (bump diff id2 (bump diff id1 (bump diff id0 pos)))
  else pos

theorem dist_sq_skip_iff (initA initB : VR) :
    (initA.distTo initB ≤ 1.5 ↔
      ¬ (1.5 * 1.5 < (initB.sub initA).dot (initB.sub initA))) := by
  unfold VR.distTo VR.len
  have hsym : (initA.sub initB).normSq = (initB.sub initA).dot (initB.sub initA) := by
    unfold VR.sub VR.normSq VR.dot
    ring
  rw [hsym]
  set q := (initB.sub initA).dot (initB.sub initA) with hq
  have hq0 : 0 ≤ q := by
    rw [hq]
    unfold VR.dot
    nlinarith [sq_nonneg (initB.sub initA).x, sq_nonneg (initB.sub initA).y,
      sq_nonneg (initB.sub initA).z]
  rw [not_lt]
  constructor
  · intro h
    have := Real.sq_sqrt hq0
    nlinarith [Real.sqrt_nonneg q]
  · intro h
    have h15 : (1.5 : ℝ) = Real.sqrt (1.5 * 1.5) := by
      rw [show (1.5 * 1.5 : ℝ) = 1.5 ^ 2 by ring, Real.sqrt_sq (by norm_num)]
    rw [h15]
    exact Real.sqrt_le_sqrt h

/-- C4 (amended): the broadphase per-pair push matches the spec's
formula with the divisor clamped to `max(d, 1e-4)` (skip exactly when
same object and rest-pose distance at most `1.5`; push exactly when
`d < rA + rB`); and when `totalForce > 0` the accumulated `diff` is
added to the positions of the four vertices of the current tet and to
no other vertex, while `totalForce ≤ 0` leaves all positions unchanged. -/
theorem solve_collisions_characterisation :
    (∀ (objA objB : ℕ) (initA initB cA cB : VR) (rA rB : ℝ),
      (collisionPairContribution objA objB initA initB cA cB rA rB).1 =
        specPairDiffAmended objA objB initA initB cA cB rA rB) ∧
    (∀ (pos : ℕ → VR) (id0 id1 id2 id3 : ℕ) (diff : VR) (tf : ℝ),
      0 < tf → id0 ≠ id1 → id0 ≠ id2 → id0 ≠ id3 → id1 ≠ id2 → id1 ≠ id3 →
      id2 ≠ id3 →
      (∀ i, i ≠ id0 → i ≠ id1 → i ≠ id2 → i ≠ id3 →
        applyCollisionDiff pos id0 id1 id2 id3 diff tf i = pos i) ∧
      applyCollisionDiff pos id0 id1 id2 id3 diff tf id0 = (pos id0).add diff ∧
      applyCollisionDiff pos id0 id1 id2 id3 diff tf id1 = (pos id1).add diff ∧
      applyCollisionDiff pos id0 id1 id2 id3 diff tf id2 = (pos id2).add diff ∧
      applyCollisionDiff pos id0 id1 id2 id3 diff tf id3 = (pos id3).add diff) ∧
    (∀ (pos : ℕ → VR) (id0 id1 id2 id3 : ℕ) (diff : VR) (tf : ℝ),
      tf ≤ 0 → applyCollisionDiff pos id0 id1 id2 id3 diff tf = pos) := by
  refine ⟨?_, ?_, ?_⟩
  · intro objA objB initA initB cA cB rA rB
    unfold collisionPairContribution specPairDiffAmended
    by_cases hskip : objA = objB ∧ initA.distTo initB ≤ 1.5
    · rw [if_pos ⟨hskip.1, (dist_sq_skip_iff initA initB).mp hskip.2⟩,
        if_pos hskip]
    · have hskip' : ¬ (objA = objB ∧
          ¬ (1.5 * 1.5 < (initB.sub initA).dot (initB.sub initA))) := by
        intro hc
        exact hskip ⟨hc.1, (dist_sq_skip_iff initA initB).mpr hc.2⟩
      rw [if_neg hskip', if_neg hskip]
      by_cases hd : cA.distTo cB < rA + rB
      · rw [if_pos hd, max_eq_left (by linarith)]
        simp only
        rw [vr_ext_iff]
        unfold VR.smul
        refine ⟨?_, ?_, ?_⟩ <;> (simp only; ring)
      · rw [if_neg hd, max_eq_right (by linarith [not_lt.mp hd])]
        simp only
        rw [vr_ext_iff]
        unfold VR.smul VR.zero
        refine ⟨?_, ?_, ?_⟩ <;> (simp only; ring)
  · intro pos id0 id1 id2 id3 diff tf htf h01 h02 h03 h12 h13 h23
    unfold applyCollisionDiff
    rw [if_pos htf]
    refine ⟨?_, ?_, ?_, ?_, ?_⟩
    · intro i hi0 hi1 hi2 hi3
      simp [bump, hi0, hi1, hi2, hi3]
    · simp [bump, h01, h02, h03]
    · simp [bump, h12, h13, Ne.symm h01]
    · simp [bump, h23, Ne.symm h02, Ne.symm h12]
    · simp [bump, Ne.symm h03, Ne.symm h13, Ne.symm h23]
  · intro pos id0 id1 id2 id3 diff tf htf
    unfold applyCollisionDiff
    rw [if_neg (not_lt.mpr htf)]

/-- Witness for C4 (amended): the apply step adds `diff` to vertex 0 of
the current tet `(0,1,2,3)` when `totalForce = 1 > 0`. -/
theorem solve_collisions_characterisation_witness :
    applyCollisionDiff (fun _ => VR.zero) 0 1 2 3 ⟨1, 0, 0⟩ 1 0 =
      (VR.zero).add ⟨1, 0, 0⟩ :=
  (solve_collisions_characterisation.2.1 (fun _ => VR.zero) 0 1 2 3 ⟨1, 0, 0⟩ 1
    (by norm_num) (by norm_num) (by norm_num) (by norm_num) (by norm_num)
    (by norm_num) (by norm_num)).2.1

theorem dist_c4 : VR.distTo VR.zero ⟨1/20000, 0, 0⟩ = 1 / 20000 := by
  unfold VR.distTo VR.sub VR.zero VR.len VR.normSq
  simp only
  norm_num
  rw [show (400000000 : ℝ) = 20000 ^ 2 by norm_num, Real.sqrt_sq (by norm_num)]
  norm_num

/-- C4 counterexample: two tets of different objects whose centroids are
`5e-5` apart with radius sum `1`. The kernel divides the push direction
by `max(d, 1e-4) = 1e-4`, the claimed formula divides by `d = 5e-5`;
the resulting pushes differ by a factor of two. -/
theorem solve_collisions_divisor_counterexample :
    (collisionPairContribution 0 1 VR.zero VR.zero VR.zero ⟨1/20000, 0, 0⟩
        (1/2) (1/2)).1 ≠
      specPairDiff 0 1 VR.zero VR.zero VR.zero ⟨1/20000, 0, 0⟩ (1/2) (1/2) := by
  intro h
  unfold collisionPairContribution specPairDiff at h
  rw [if_neg (by intro hc; exact absurd hc.1 (by norm_num)),
    if_neg (by intro hc; exact absurd hc.1 (by norm_num)),
    if_pos (by rw [dist_c4]; norm_num)] at h
  rw [dist_c4] at h
  have hx := congrArg (fun v : VR => v.x) h
  simp only [VR.smul, VR.sub, VR.zero, VR.divs] at hx
  rw [max_eq_left (by norm_num : (0:ℝ) ≤ 1/2 + 1/2 - 1/20000),
    max_eq_right (by norm_num : (1/20000 : ℝ) ≤ 0.0001)] at hx
  norm_num at hx

/-! ## Reset kernel
(`kernels.resetVertices`, `src/lib/core/SoftbodySimulation.js`
lines 838-853, and `SoftbodySimulation.resetObject` lines 1100-1119). -/

/-- A quaternion with rational components. -/
structure Quat where
  x : ℚ
  y : ℚ
  z : ℚ
  w : ℚ
deriving DecidableEq

/-- An affine 4x4 matrix (rotation/scale columns plus translation),
the shape produced by `THREE.Matrix4.compose`. -/
structure Mat4 where
  c0 : V3
  c1 : V3
  c2 : V3
  t : V3
deriving DecidableEq

/-- `resetMatrix.mul(vec4(p, 1)).xyz`: the affine action of the matrix. -/
def Mat4.apply (m : Mat4) (p : V3) : V3 :=
  ((V3.smul p.x m.c0).add (V3.smul p.y m.c1)).add ((V3.smul p.z m.c2).add m.t)

/-- `THREE.Matrix4.compose(position, quaternion, scale)` as called by
`resetObject` (line 1103): columns of `T·R(q)·S` in the standard THREE
formulation. -/
def composeMatrix (position : V3) (q : Quat) (scale : V3) : Mat4 :=
  let x2 := q.x + q.x
  let y2 := q.y + q.y
  let z2 := q.z + q.z
  let xx := q.x * x2
  let xy := q.x * y2
  let xz := q.x * z2
  let yy := q.y * y2
  let yz := q.y * z2
  let zz := q.z * z2
  let wx := q.w * x2
  let wy := q.w * y2
  let wz := q.w * z2
  { c0 := ⟨(1 - (yy + zz)) * scale.x, (xy + wz) * scale.x, (xz - wy) * scale.x⟩
    c1 := ⟨(xy - wz) * scale.y, (1 - (xx + zz)) * scale.y, (yz + wx) * scale.y⟩
    c2 := ⟨(xz + wy) * scale.z, (yz - wx) * scale.z, (1 - (xx + yy)) * scale.z⟩
    t := position }

/-- `resetObject` copies the spawn velocity into the `resetVelocity`
uniform unscaled (line 1110: `resetVelocity.value.copy(velocity)`). -/
def resetObjectVelocityUniform (velocity : V3) : V3 := velocity

/-- One thread of the `resetVertices` kernel: `position` becomes the
transformed rest position, `prevPosition` becomes
`position - resetVelocity`. -/
def resetVertexKernel (m : Mat4) (velocity restPos : V3) : V3 × V3 :=
  (m.apply restPos, (m.apply restPos).sub velocity)

/-- The `size` write of the `resetVertices` kernel: the first thread
(`instanceIndex == 0`) sets the object's size to `1.0`. -/
def resetSizeWrite (threadIndex : ℕ) (oldSize : ℚ) : ℚ :=
  if threadIndex = 0 then 1 else oldSize

/-- The previous-position value claimed by the spec:
`prev = pos - velocity * Δt`. Stated from the spec for comparison with
`resetVertexKernel`. -/
def specResetPrev (pos velocity : V3) (dt : ℚ) : V3 :=
  pos.sub (V3.smul dt velocity)

theorem v3_ext_iff {a b : V3} : a = b ↔ a.x = b.x ∧ a.y = b.y ∧ a.z = b.z := by
  constructor
  · intro h; subst h; exact ⟨rfl, rfl, rfl⟩
  · rcases a with ⟨ax, ay, az⟩
    rcases b with ⟨bx, by', bz⟩
    rintro ⟨h1, h2, h3⟩
    simp only at h1 h2 h3
    subst h1; subst h2; subst h3
    rfl

/-- C5 (amended): each thread of `resetVertices` sets the position to
the composed transform applied to the rest position and the previous
position to `position - velocity` (the spawn velocity is applied
UNSCALED, with no Δt factor); the first thread sets the size to 1; and
a reset with the identity transform and zero velocity restores every
rest position exactly. -/
theorem reset_vertices_characterisation :
    (∀ (m : Mat4) (velocity restPos : V3),
      (resetVertexKernel m velocity restPos).1 = m.apply restPos ∧
      (resetVertexKernel m velocity restPos).2 = (m.apply restPos).sub velocity) ∧
    (∀ s : ℚ, resetSizeWrite 0 s = 1) ∧
    (∀ restPos : V3,
      resetVertexKernel (composeMatrix ⟨0, 0, 0⟩ ⟨0, 0, 0, 1⟩ ⟨1, 1, 1⟩)
          ⟨0, 0, 0⟩ restPos = (restPos, restPos)) := by
  refine ⟨fun m velocity restPos => ⟨rfl, rfl⟩, fun s => rfl, ?_⟩
  intro restPos
  unfold resetVertexKernel composeMatrix Mat4.apply V3.smul V3.add V3.sub
  rw [Prod.mk.injEq]
  constructor <;> (rw [v3_ext_iff]; refine ⟨?_, ?_, ?_⟩ <;> (simp only; ring))

/-- Witness for C5 (amended): identity reset restores the concrete rest
position `(2, 3, 4)`. -/
theorem reset_vertices_characterisation_witness :
    resetVertexKernel (composeMatrix ⟨0, 0, 0⟩ ⟨0, 0, 0, 1⟩ ⟨1, 1, 1⟩)
        ⟨0, 0, 0⟩ ⟨2, 3, 4⟩ = (⟨2, 3, 4⟩, ⟨2, 3, 4⟩) :=
  reset_vertices_characterisation.2.2 ⟨2, 3, 4⟩

/-- C5 counterexample: with the identity transform, spawn velocity
`(1,0,0)` and physics step `Δt = 1/60`, the kernel writes
`prev = pos - (1,0,0)` whereas the claim prescribes
`prev = pos - (1,0,0)·Δt = pos - (1/60,0,0)`; no Δt scaling exists in
`resetObject` or the kernel. -/
theorem reset_prev_velocity_counterexample :
    (resetVertexKernel (composeMatrix ⟨0, 0, 0⟩ ⟨0, 0, 0, 1⟩ ⟨1, 1, 1⟩)
        (resetObjectVelocityUniform ⟨1, 0, 0⟩) ⟨0, 0, 0⟩).2 ≠
      specResetPrev
        (resetVertexKernel (composeMatrix ⟨0, 0, 0⟩ ⟨0, 0, 0, 1⟩ ⟨1, 1, 1⟩)
          (resetObjectVelocityUniform ⟨1, 0, 0⟩) ⟨0, 0, 0⟩).1
        ⟨1, 0, 0⟩ (1 / 60) := by
  intro h
  rw [v3_ext_iff] at h
  unfold resetVertexKernel resetObjectVelocityUniform specResetPrev composeMatrix
    Mat4.apply V3.smul V3.add V3.sub at h
  norm_num at h

/-! ## Gmsh element-index handling
(`parseMsh` and `processTetGeometry`, `src/lib/geometry/ModelProcessor.js`
lines 14-65 and 150-170). The regex extraction of `parseMsh` reduces a
well-formed element block to the flat stream of its trailing four
integer indices per record; the index arithmetic under scrutiny lives in
`processTetGeometry`. -/

/-- Groups the flat index stream into records of four, as the
`i += 4` loop of `processTetGeometry` does. -/
def chunks4 : List ℕ → List (ℕ × ℕ × ℕ × ℕ)
  | a :: b :: c :: d :: rest => (a, b, c, d) :: chunks4 rest
  | _ => []

/-- `Math.max(...tetIdsRaw)` over the index stream (0 when empty; the
comparison below is then false either way, as with `-Infinity`). -/
def listMax (l : List ℕ) : ℕ := l.foldr max 0

/-- The 1-based-detection heuristic of `processTetGeometry` (line 39):
`tetIdsRaw[0] >= 1 && Math.max(...tetIdsRaw) > vertices.length`. -/
def mshIsOneBased (numVerts : ℕ) (tetIdsRaw : List ℕ) : Bool :=
  (match tetIdsRaw with
   | [] => false
   | h :: _ => decide (1 ≤ h)) && decide (numVerts < listMax tetIdsRaw)

/-- The index offset applied by `processTetGeometry` (line 40). -/
def mshOffset (numVerts : ℕ) (tetIdsRaw : List ℕ) : ℤ :=
  if mshIsOneBased numVerts tetIdsRaw then -1 else 0

/-- The tets built by `processTetGeometry` from a node count and the
flat index stream: each record of four indices is kept only when all
four offset indices address an existing vertex (`if (a && b && c && d)`),
and the stored references are `index + offset`. -/
def processTetGeometryTets (numVerts : ℕ) (tetIdsRaw : List ℕ) :
    List (ℤ × ℤ × ℤ × ℤ) :=
  (chunks4 tetIdsRaw).filterMap (fun t =>
    let a := (t.1 : ℤ) + mshOffset numVerts tetIdsRaw
    let b := (t.2.1 : ℤ) + mshOffset numVerts tetIdsRaw
    let c := (t.2.2.1 : ℤ) + mshOffset numVerts tetIdsRaw
    let d := (t.2.2.2 : ℤ) + mshOffset numVerts tetIdsRaw
    if 0 ≤ a ∧ a < numVerts ∧ 0 ≤ b ∧ b < numVerts ∧
       0 ≤ c ∧ c < numVerts ∧ 0 ≤ d ∧ d < numVerts
    then some (a, b, c, d) else none)

/-- The storage required by the spec: every element record ending in
four integer indices becomes a tet whose stored references are the
1-based source indices minus one. Stated from the spec for comparison
with `processTetGeometryTets`. -/
def specMshTets (tetIdsRaw : List ℕ) : List (ℤ × ℤ × ℤ × ℤ) :=
  (chunks4 tetIdsRaw).map (fun t =>
    ((t.1 : ℤ) - 1, (t.2.1 : ℤ) - 1, (t.2.2.1 : ℤ) - 1, (t.2.2.2 : ℤ) - 1))

theorem listMax_le (n : ℕ) (l : List ℕ) (h : ∀ i ∈ l, i ≤ n) : listMax l ≤ n := by
  induction l with
  | nil => exact Nat.zero_le n
  | cons a t ih =>
      have ha := h a (List.mem_cons_self a t)
      have ht := ih (fun i hi => h i (List.mem_cons_of_mem a hi))
      unfold listMax at ht ⊢
      simp only [List.foldr]
      exact max_le ha ht

/-- C7 (code bug): on every well-formed 1-based index stream (all
indices at most the node count) the detection heuristic reports
0-based, so no `-1` offset is ever applied; in particular, for a
4-node file with the single tet record `1 2 3 4` the code drops the tet
entirely (it reads the out-of-range vertex 4), whereas the spec requires
the stored tet `(0,1,2,3)`. -/
theorem msh_one_based_heuristic_bug :
    (∀ (numVerts : ℕ) (raw : List ℕ), (∀ i ∈ raw, i ≤ numVerts) →
      mshIsOneBased numVerts raw = false ∧ mshOffset numVerts raw = 0) ∧
    processTetGeometryTets 4 [1, 2, 3, 4] = [] ∧
    specMshTets [1, 2, 3, 4] = [(0, 1, 2, 3)] := by
  refine ⟨?_, ?_, ?_⟩
  · intro numVerts raw hall
    have hmax : ¬ (numVerts < listMax raw) := not_lt.mpr (listMax_le numVerts raw hall)
    have hfalse : mshIsOneBased numVerts raw = false := by
      unfold mshIsOneBased
      rcases raw with _ | ⟨h, t⟩
      · rfl
      · simp [hmax]
    exact ⟨hfalse, by unfold mshOffset; rw [hfalse]; rfl⟩
  · rfl
  · rfl

/-! ## Barycentric attachment and render-time reconstruction
(`processGeometry`, `src/lib/geometry/ModelProcessor.js` lines 73-143;
`SoftbodyGeometry.createMaterial`, `src/lib/core/Grid.js` render part). -/

/-- A 3x3 matrix with rational entries, row major
(`THREE.Matrix3.set` order). -/
structure Mat3 where
  a11 : ℚ
  a12 : ℚ
  a13 : ℚ
  a21 : ℚ
  a22 : ℚ
  a23 : ℚ
  a31 : ℚ
  a32 : ℚ
  a33 : ℚ
deriving DecidableEq

/-- Determinant as expanded by `THREE.Matrix3.determinant`. -/
def Mat3.det (m : Mat3) : ℚ :=
  m.a11 * (m.a22 * m.a33 - m.a23 * m.a32)
  - m.a12 * (m.a21 * m.a33 - m.a23 * m.a31)
  + m.a13 * (m.a21 * m.a32 - m.a22 * m.a31)

/-- `THREE.Matrix3.invert`: the zero matrix when the determinant is
zero, otherwise the adjugate divided by the determinant. -/
def Mat3.invert (m : Mat3) : Mat3 :=
  if m.det = 0 then ⟨0, 0, 0, 0, 0, 0, 0, 0, 0⟩
  else
    ⟨(m.a22 * m.a33 - m.a23 * m.a32) / m.det,
     (m.a13 * m.a32 - m.a12 * m.a33) / m.det,
     (m.a12 * m.a23 - m.a13 * m.a22) / m.det,
     (m.a23 * m.a31 - m.a21 * m.a33) / m.det,
     (m.a11 * m.a33 - m.a13 * m.a31) / m.det,
     (m.a13 * m.a21 - m.a11 * m.a23) / m.det,
     (m.a21 * m.a32 - m.a22 * m.a31) / m.det,
     (m.a12 * m.a31 - m.a11 * m.a32) / m.det,
     (m.a11 * m.a22 - m.a12 * m.a21) / m.det⟩

/-- `v.applyMatrix3(m)`: matrix-vector product. -/
def Mat3.apply (m : Mat3) (v : V3) : V3 :=
  ⟨m.a11 * v.x + m.a12 * v.y + m.a13 * v.z,
   m.a21 * v.x + m.a22 * v.y + m.a23 * v.z,
   m.a31 * v.x + m.a32 * v.y + m.a33 * v.z⟩

/-- The edge matrix built by `getMatrixInverse` in `processGeometry`:
columns `v1-v0, v2-v0, v3-v0` (row-major `set(a.x,b.x,c.x, ...)`). -/
def tetBaryMatrix (v0 v1 v2 v3 : V3) : Mat3 :=
  ⟨(v1.sub v0).x, (v2.sub v0).x, (v3.sub v0).x,
   (v1.sub v0).y, (v2.sub v0).y, (v3.sub v0).y,
   (v1.sub v0).z, (v2.sub v0).z, (v3.sub v0).z⟩

/-- The barycentric coordinates computed per surface vertex in
`processGeometry`: `(p - v0).applyMatrix3(matrixInverse)`. -/
def computeBaryCoords (v0 v1 v2 v3 p : V3) : V3 :=
  (tetBaryMatrix v0 v1 v2 v3).invert.apply (p.sub v0)

/-- The 4-decimal rounding applied to the stored model output
(`Math.round(v * 10000) / 10000`, with JS `Math.round = ⌊x + 1/2⌋`). -/
def roundJS4 (q : ℚ) : ℚ := (⌊q * 10000 + 1/2⌋ : ℚ) / 10000

/-- Componentwise rounding of a stored barycentric triple. -/
def roundV3 (v : V3) : V3 := ⟨roundJS4 v.x, roundJS4 v.y, roundJS4 v.z⟩

/-- The render-time reconstruction of the surface vertex from its host
tet in `SoftbodyGeometry.createMaterial`:
`(v1-v0)·b₁ + (v2-v0)·b₂ + (v3-v0)·b₃ + v0`. -/
def reconstructSurfaceVertex (v0 v1 v2 v3 b : V3) : V3 :=
  ((V3.smul b.x (v1.sub v0)).add (V3.smul b.y (v2.sub v0))).add
    ((V3.smul b.z (v3.sub v0)).add v0)

/-- The centroid stored per tet by `processTetGeometry`. -/
def tetCenter (t : V3 × V3 × V3 × V3) : V3 :=
  V3.smul (1/4) (((t.1.add t.2.1).add t.2.2.1).add t.2.2.2)

/-- One step of the `findClosestTet` scan of `processGeometry`:
keep the tet whose centroid is strictly closer than the best so far. -/
noncomputable def closestStep (p : V3) (acc : Option ((V3 × V3 × V3 × V3) × ℝ))
    (t : V3 × V3 × V3 × V3) : Option ((V3 × V3 × V3 × V3) × ℝ) :=
  match acc with
  | none => some (t, p.distTo (tetCenter t))
  | some (t0, d0) =>
      if p.distTo (tetCenter t) < d0 then some (t, p.distTo (tetCenter t))
      else some (t0, d0)

/-- `findClosestTet` of `processGeometry`: linear scan minimising the
distance to the tet centroid (`minDist` starts at `Infinity`, modelled
by the empty accumulator). -/
noncomputable def findClosestTet (p : V3) (tets : List (V3 × V3 × V3 × V3)) :
    Option (V3 × V3 × V3 × V3) :=
  (tets.foldl (closestStep p) none).map Prod.fst

/-- C8 (amended): whenever the host tet's edge matrix is invertible,
reconstructing a surface vertex from the computed (pre-rounding)
barycentric coordinates returns the original position exactly — in
particular within 1e-4. -/
theorem bary_roundtrip_exact (v0 v1 v2 v3 p : V3)
    (hdet : (tetBaryMatrix v0 v1 v2 v3).det ≠ 0) :
    reconstructSurfaceVertex v0 v1 v2 v3 (computeBaryCoords v0 v1 v2 v3 p) = p := by
  rcases v0 with ⟨ax, ay, az⟩
  rcases v1 with ⟨bx, by', bz⟩
  rcases v2 with ⟨cx, cy, cz⟩
  rcases v3 with ⟨dx, dy, dz⟩
  rcases p with ⟨px, py, pz⟩
  unfold tetBaryMatrix Mat3.det V3.sub at hdet
  simp only at hdet
  unfold reconstructSurfaceVertex computeBaryCoords tetBaryMatrix Mat3.invert
    Mat3.det Mat3.apply V3.sub V3.add V3.smul
  simp only
  rw [if_neg (by simpa using hdet)]
  rw [v3_ext_iff]
  refine ⟨?_, ?_, ?_⟩ <;> (simp only; field_simp; ring)

/-- Witness for C8 (amended) at a concrete unit tet and interior point. -/
theorem bary_roundtrip_exact_witness :
    reconstructSurfaceVertex ⟨0,0,0⟩ ⟨1,0,0⟩ ⟨0,1,0⟩ ⟨0,0,1⟩
        (computeBaryCoords ⟨0,0,0⟩ ⟨1,0,0⟩ ⟨0,1,0⟩ ⟨0,0,1⟩ ⟨1/3, 1/4, 1/5⟩) =
      ⟨1/3, 1/4, 1/5⟩ :=
  bary_roundtrip_exact ⟨0,0,0⟩ ⟨1,0,0⟩ ⟨0,1,0⟩ ⟨0,0,1⟩ ⟨1/3, 1/4, 1/5⟩
    (by norm_num [tetBaryMatrix, Mat3.det, V3.sub])

/-- C8 counterexample: the host tet `(0,0,0),(4,0,0),(0,1,0),(0,0,1)`
(the only, hence nearest-centroid, tet) and surface vertex
`(0.0002, 0, 0)` give computed barycentrics `(0.00005, 0, 0)`; the
STORED (4-decimal-rounded) barycentrics are `(0.0001, 0, 0)` and the
render-time reconstruction lands at `(0.0004, 0, 0)`, at distance
`0.0002 > 1e-4` from the original surface position. -/
theorem bary_rounding_counterexample :
    findClosestTet ⟨1/5000, 0, 0⟩ [(⟨0,0,0⟩, ⟨4,0,0⟩, ⟨0,1,0⟩, ⟨0,0,1⟩)] =
      some (⟨0,0,0⟩, ⟨4,0,0⟩, ⟨0,1,0⟩, ⟨0,0,1⟩) ∧
    roundV3 (computeBaryCoords ⟨0,0,0⟩ ⟨4,0,0⟩ ⟨0,1,0⟩ ⟨0,0,1⟩ ⟨1/5000, 0, 0⟩) =
      ⟨1/10000, 0, 0⟩ ∧
    ¬ (V3.distTo
        (reconstructSurfaceVertex ⟨0,0,0⟩ ⟨4,0,0⟩ ⟨0,1,0⟩ ⟨0,0,1⟩
          (roundV3 (computeBaryCoords ⟨0,0,0⟩ ⟨4,0,0⟩ ⟨0,1,0⟩ ⟨0,0,1⟩
            ⟨1/5000, 0, 0⟩)))
        ⟨1/5000, 0, 0⟩ ≤ 1/10000) := by
  have hbary : computeBaryCoords ⟨0,0,0⟩ ⟨4,0,0⟩ ⟨0,1,0⟩ ⟨0,0,1⟩ ⟨1/5000, 0, 0⟩ =
      ⟨1/20000, 0, 0⟩ := by
    norm_num [computeBaryCoords, tetBaryMatrix, Mat3.invert, Mat3.det, Mat3.apply,
      V3.sub, V3.mk.injEq]
  have hround : roundV3 (⟨1/20000, 0, 0⟩ : V3) = ⟨1/10000, 0, 0⟩ := by
    unfold roundV3 roundJS4
    rw [v3_ext_iff]
    refine ⟨?_, ?_, ?_⟩
    · simp only
      rw [show ((1:ℚ)/20000 * 10000 + 1/2 : ℚ) = 1 by norm_num, Int.floor_one]
      norm_num
    · simp only
      rw [show ((0:ℚ) * 10000 + 1/2 : ℚ) = 1/2 by norm_num]
      rw [show ⌊(1/2 : ℚ)⌋ = 0 by norm_num]
      norm_num
    · simp only
      rw [show ((0:ℚ) * 10000 + 1/2 : ℚ) = 1/2 by norm_num]
      rw [show ⌊(1/2 : ℚ)⌋ = 0 by norm_num]
      norm_num
  have hrecon : reconstructSurfaceVertex ⟨0,0,0⟩ ⟨4,0,0⟩ ⟨0,1,0⟩ ⟨0,0,1⟩
      ⟨1/10000, 0, 0⟩ = ⟨1/2500, 0, 0⟩ := by
    norm_num [reconstructSurfaceVertex, V3.sub, V3.add, V3.smul, V3.mk.injEq]
  have hdist : V3.distTo (⟨1/2500, 0, 0⟩ : V3) ⟨1/5000, 0, 0⟩ = 1/5000 := by
    unfold V3.distTo V3.len V3.sub V3.normSq
    push_cast
    norm_num
    rw [show (25000000 : ℝ) = 5000 ^ 2 by norm_num, Real.sqrt_sq (by norm_num)]
    norm_num
  refine ⟨?_, ?_, ?_⟩
  · simp [findClosestTet, closestStep, List.foldl]
  · rw [hbary, hround]
  · rw [hbary, hround, hrecon, hdist]
    norm_num

/-! ## Edge store
(`SoftbodySimulation._addEdge` lines 157-177 and
`SoftbodySimulation.addTet` lines 188-206; `TET_EDGES` from
`src/lib/utils/math.js`). -/

/-- A registered simulation vertex: id and (immutable) position. -/
structure SimVertex where
  id : ℕ
  pos : V3
deriving DecidableEq

/-- A stored edge: the two vertices (smaller id first on insertion) and
the rest length captured at registration time. -/
structure SimEdge where
  v0 : SimVertex
  v1 : SimVertex
  restLength : ℝ

/-- The endpoint with the smaller id (`v0.id < v1.id ? [v0,v1] : [v1,v0]`). -/
def edgeLo (u v : SimVertex) : SimVertex := if u.id < v.id then u else v

/-- The endpoint with the larger id. -/
def edgeHi (u v : SimVertex) : SimVertex := if u.id < v.id then v else u

/-- `_addEdge(v0, v1)`: normalise the order (smaller id first), return
the store unchanged when the unordered id pair is already present
(the `edgeKey` set), otherwise append the edge with
`restLength = vA.distanceTo(vB)`. -/
noncomputable def addEdge (es : List SimEdge) (u v : SimVertex) : List SimEdge :=
  if es.any (fun e => e.v0.id == (edgeLo u v).id && e.v1.id == (edgeHi u v).id)
  then es
  else es ++ [⟨edgeLo u v, edgeHi u v,
    V3.distTo (edgeLo u v).pos (edgeHi u v).pos⟩]

/-- The six `_addEdge` calls issued by `addTet` in `TET_EDGES` order
(`[0,1],[0,2],[0,3],[1,2],[1,3],[2,3]`). -/
noncomputable def addTetEdges (es : List SimEdge) (v0 v1 v2 v3 : SimVertex) :
    List SimEdge :=
  addEdge (addEdge (addEdge (addEdge (addEdge (addEdge es v0 v1) v0 v2) v0 v3)
    v1 v2) v1 v3) v2 v3

/-- The edge-store invariant claimed by the spec: smaller vertex id
first, no two edges with the same unordered id pair, and each rest
length equal to the distance between the edge's two vertices at
registration time. -/
def edgeStoreInvariant (es : List SimEdge) : Prop :=
  (∀ e ∈ es, e.v0.id < e.v1.id) ∧
  es.Pairwise (fun e f =>
    ¬ ((e.v0.id = f.v0.id ∧ e.v1.id = f.v1.id) ∨
       (e.v0.id = f.v1.id ∧ e.v1.id = f.v0.id))) ∧
  (∀ e ∈ es, e.restLength = V3.distTo e.v0.pos e.v1.pos)

theorem addEdge_preserves (es : List SimEdge) (u v : SimVertex)
    (huv : u.id ≠ v.id) (h : edgeStoreInvariant es) :
    edgeStoreInvariant (addEdge es u v) := by
  obtain ⟨hord, huniq, hlen⟩ := h
  unfold addEdge
  by_cases hany : es.any (fun e =>
      e.v0.id == (edgeLo u v).id && e.v1.id == (edgeHi u v).id) = true
  · rw [if_pos hany]; exact ⟨hord, huniq, hlen⟩
  · rw [if_neg hany]
    have hab : (edgeLo u v).id < (edgeHi u v).id := by
      unfold edgeLo edgeHi
      by_cases hlt : u.id < v.id
      · rw [if_pos hlt, if_pos hlt]; exact hlt
      · rw [if_neg hlt, if_neg hlt]
        exact lt_of_le_of_ne (not_lt.mp hlt) (Ne.symm huv)
    have hnotmem : ∀ e ∈ es,
        ¬ (e.v0.id = (edgeLo u v).id ∧ e.v1.id = (edgeHi u v).id) := by
      intro e he hc
      apply hany
      rw [List.any_eq_true]
      refine ⟨e, he, ?_⟩
      rw [Bool.and_eq_true, beq_iff_eq, beq_iff_eq]
      exact hc
    refine ⟨?_, ?_, ?_⟩
    · intro e he
      rcases List.mem_append.mp he with h' | h'
      · exact hord e h'
      · rw [List.mem_singleton] at h'
        subst h'
        exact hab
    · rw [List.pairwise_append]
      refine ⟨huniq, List.pairwise_singleton _ _, ?_⟩
      intro e he f hf
      rw [List.mem_singleton] at hf
      subst hf
      intro hc
      rcases hc with ⟨h1, h2⟩ | ⟨h1, h2⟩
      · exact hnotmem e he ⟨h1, h2⟩
      · have h3 := hord e he
        dsimp only at h1 h2
        rw [h1, h2] at h3
        omega
    · intro e he
      rcases List.mem_append.mp he with h' | h'
      · exact hlen e h'
      · rw [List.mem_singleton] at h'
        subst h'
        rfl

/-- C9 (amended): starting from the empty store, every `_addEdge` call
with distinct vertex ids and every `addTet` call with four pairwise
distinct vertex ids preserves the edge-store invariant: smaller id
first, no duplicate unordered id pair, rest length equal to the
registration-time distance. -/
theorem edge_store_invariant_preserved :
    edgeStoreInvariant [] ∧
    (∀ (es : List SimEdge) (u v : SimVertex), u.id ≠ v.id →
      edgeStoreInvariant es → edgeStoreInvariant (addEdge es u v)) ∧
    (∀ (es : List SimEdge) (v0 v1 v2 v3 : SimVertex),
      v0.id ≠ v1.id → v0.id ≠ v2.id → v0.id ≠ v3.id →
      v1.id ≠ v2.id → v1.id ≠ v3.id → v2.id ≠ v3.id →
      edgeStoreInvariant es → edgeStoreInvariant (addTetEdges es v0 v1 v2 v3)) := by
  refine ⟨⟨by simp, List.Pairwise.nil, by simp⟩, addEdge_preserves, ?_⟩
  intro es v0 v1 v2 v3 h01 h02 h03 h12 h13 h23 h
  unfold addTetEdges
  exact addEdge_preserves _ _ _ h23
    (addEdge_preserves _ _ _ h13
      (addEdge_preserves _ _ _ h12
        (addEdge_preserves _ _ _ h03
          (addEdge_preserves _ _ _ h02
            (addEdge_preserves _ _ _ h01 h)))))

/-- Witness for C9 (amended): the six edges of a concrete tet with
vertex ids `0,1,2,3` satisfy the invariant. -/
theorem edge_store_invariant_preserved_witness :
    edgeStoreInvariant (addTetEdges [] ⟨0, ⟨0,0,0⟩⟩ ⟨1, ⟨1,0,0⟩⟩
      ⟨2, ⟨0,1,0⟩⟩ ⟨3, ⟨0,0,1⟩⟩) :=
  edge_store_invariant_preserved.2.2 [] ⟨0, ⟨0,0,0⟩⟩ ⟨1, ⟨1,0,0⟩⟩
    ⟨2, ⟨0,1,0⟩⟩ ⟨3, ⟨0,0,1⟩⟩
    (by norm_num) (by norm_num) (by norm_num) (by norm_num) (by norm_num)
    (by norm_num) ⟨by simp, List.Pairwise.nil, by simp⟩

/-- C9 counterexample: `_addEdge` called with the same vertex twice
(equal ids) stores an edge with `v0.id < v1.id` false — the claimed
invariant is not maintained by every call, only by calls with distinct
vertex ids. -/
theorem edge_store_degenerate_call_counterexample :
    ¬ edgeStoreInvariant (addEdge [] ⟨0, ⟨0,0,0⟩⟩ ⟨0, ⟨0,0,0⟩⟩) := by
  intro h
  have hmem : (⟨⟨0, ⟨0,0,0⟩⟩, ⟨0, ⟨0,0,0⟩⟩,
      V3.distTo (⟨0,0,0⟩ : V3) ⟨0,0,0⟩⟩ : SimEdge) ∈
      addEdge [] ⟨0, ⟨0,0,0⟩⟩ ⟨0, ⟨0,0,0⟩⟩ := by
    unfold addEdge edgeLo edgeHi
    simp
  have := h.1 _ hmem
  dsimp only at this
  omega

/-! ## Nearest-vertex ray query
(`SoftbodySimulation.findNearestVertex`,
`src/lib/core/SoftbodySimulation.js` lines 1042-1090). -/

/-- One candidate vertex of the scan: buffer index, read-back position,
and whether its owning object is spawned. -/
structure RayVertex where
  idx : ℕ
  pos : V3
  spawned : Bool

/-- The qualification test of the scan: the owning object is spawned,
the projection of `pos - rayOrigin` onto the ray direction is
non-negative (`projLength < 0` vertices are skipped as behind the
camera), and the perpendicular distance from the vertex to the ray is
strictly below `maxDistance`. -/
noncomputable def qualifiesRay (ro rd : V3) (maxD : ℝ) (v : RayVertex) : Prop :=
  v.spawned = true ∧ 0 ≤ (v.pos.sub ro).dot rd ∧
  V3.distTo v.pos (ro.add (V3.smul ((v.pos.sub ro).dot rd) rd)) < maxD

open Classical in
/-- One loop iteration of `findNearestVertex`: skip unspawned vertices
and negative projections; accept when the perpendicular distance is
below `maxDistance` AND the projection beats the best so far
(`Infinity` when no best exists, modelled by `none`). -/
noncomputable def nearestStep (ro rd : V3) (maxD : ℝ)
    (acc : Option (ℕ × V3 × ℚ)) (v : RayVertex) : Option (ℕ × V3 × ℚ) :=
  if v.spawned = true then
    if (v.pos.sub ro).dot rd < 0 then acc
    else
      if V3.distTo v.pos (ro.add (V3.smul ((v.pos.sub ro).dot rd) rd)) < maxD ∧
         (match acc with
          | none => True
          | some (_, _, bp) => (v.pos.sub ro).dot rd < bp) then
        some (v.idx, v.pos, (v.pos.sub ro).dot rd)
      else acc
  else acc

/-- `findNearestVertex(rayOrigin, rayDirection, maxDistance)`: the scan
over all vertices in buffer order; returns `null` (`none`) when no
vertex qualifies, else the best `(vertexId, position, projLength)`. -/
noncomputable def findNearestVertex (ro rd : V3) (maxD : ℝ)
    (vs : List RayVertex) : Option (ℕ × V3 × ℚ) :=
  vs.foldl (nearestStep ro rd maxD) none

/-- Loop invariant of the scan: an empty accumulator means no processed
vertex qualifies; a non-empty one is a qualifying processed vertex with
minimal projection among processed qualifiers. -/
noncomputable def nearestInv (ro rd : V3) (maxD : ℝ)
    (processed : List RayVertex) (acc : Option (ℕ × V3 × ℚ)) : Prop :=
  match acc with
  | none => ∀ v ∈ processed, ¬ qualifiesRay ro rd maxD v
  | some (i, p, d) =>
      (∃ v ∈ processed, v.idx = i ∧ v.pos = p ∧ qualifiesRay ro rd maxD v ∧
        d = (v.pos.sub ro).dot rd) ∧
      (∀ u ∈ processed, qualifiesRay ro rd maxD u → d ≤ (u.pos.sub ro).dot rd)

theorem nearestInv_extend_none (ro rd : V3) (maxD : ℝ)
    (processed : List RayVertex) (v : RayVertex)
    (h : nearestInv ro rd maxD processed none)
    (hv : ¬ qualifiesRay ro rd maxD v) :
    nearestInv ro rd maxD (processed ++ [v]) none := by
  simp only [nearestInv] at h ⊢
  intro u hu
  rcases List.mem_append.mp hu with h' | h'
  · exact h u h'
  · rw [List.mem_singleton] at h'
    subst h'
    exact hv

theorem nearestInv_extend_some (ro rd : V3) (maxD : ℝ)
    (processed : List RayVertex) (v : RayVertex) (i0 : ℕ) (p0 : V3) (d0 : ℚ)
    (h : nearestInv ro rd maxD processed (some (i0, p0, d0)))
    (hv : qualifiesRay ro rd maxD v → d0 ≤ (v.pos.sub ro).dot rd) :
    nearestInv ro rd maxD (processed ++ [v]) (some (i0, p0, d0)) := by
  simp only [nearestInv] at h ⊢
  obtain ⟨⟨w, hw, hwf⟩, hmin⟩ := h
  refine ⟨⟨w, List.mem_append.mpr (Or.inl hw), hwf⟩, ?_⟩
  intro u hu hq
  rcases List.mem_append.mp hu with h' | h'
  · exact hmin u h' hq
  · rw [List.mem_singleton] at h'
    subst h'
    exact hv hq

theorem nearestStep_inv (ro rd : V3) (maxD : ℝ) (processed : List RayVertex)
    (acc : Option (ℕ × V3 × ℚ)) (v : RayVertex)
    (h : nearestInv ro rd maxD processed acc) :
    nearestInv ro rd maxD (processed ++ [v])
      (nearestStep ro rd maxD acc v) := by
  rcases acc with _ | ⟨i0, p0, d0⟩
  · unfold nearestStep
    split_ifs with hsp hneg hcond
    · exact nearestInv_extend_none ro rd maxD processed v h
        (fun hq => absurd hq.2.1 (not_le.mpr hneg))
    · simp only [nearestInv] at h ⊢
      refine ⟨⟨v, List.mem_append.mpr (Or.inr (List.mem_singleton.mpr rfl)),
        rfl, rfl, ⟨hsp, not_lt.mp hneg, hcond.1⟩, rfl⟩, ?_⟩
      intro u hu hq
      rcases List.mem_append.mp hu with h' | h'
      · exact absurd hq (h u h')
      · rw [List.mem_singleton] at h'
        subst h'
        exact le_refl _
    · exact nearestInv_extend_none ro rd maxD processed v h
        (fun hq => hcond ⟨hq.2.2, trivial⟩)
    · exact nearestInv_extend_none ro rd maxD processed v h
        (fun hq => hsp hq.1)
  · unfold nearestStep
    split_ifs with hsp hneg hcond
    · exact nearestInv_extend_some ro rd maxD processed v i0 p0 d0 h
        (fun hq => absurd hq.2.1 (not_le.mpr hneg))
    · simp only [nearestInv] at h ⊢
      obtain ⟨⟨w, hw, hwf⟩, hmin⟩ := h
      refine ⟨⟨v, List.mem_append.mpr (Or.inr (List.mem_singleton.mpr rfl)),
        rfl, rfl, ⟨hsp, not_lt.mp hneg, hcond.1⟩, rfl⟩, ?_⟩
      intro u hu hq
      rcases List.mem_append.mp hu with h' | h'
      · exact le_of_lt (lt_of_lt_of_le hcond.2 (hmin u h' hq))
      · rw [List.mem_singleton] at h'
        subst h'
        exact le_refl _
    · exact nearestInv_extend_some ro rd maxD processed v i0 p0 d0 h
        (fun hq => by
          by_contra hlt
          exact hcond ⟨hq.2.2, not_le.mp hlt⟩)
    · exact nearestInv_extend_some ro rd maxD processed v i0 p0 d0 h
        (fun hq => absurd hq.1 hsp)

theorem nearest_fold_inv (ro rd : V3) (maxD : ℝ) (vs : List RayVertex) :
    ∀ (processed : List RayVertex) (acc : Option (ℕ × V3 × ℚ)),
      nearestInv ro rd maxD processed acc →
      nearestInv ro rd maxD (processed ++ vs)
        (vs.foldl (nearestStep ro rd maxD) acc) := by
  induction vs with
  | nil =>
      intro processed acc h
      simpa using h
  | cons v t ih =>
      intro processed acc h
      have h1 := nearestStep_inv ro rd maxD processed acc v h
      have h2 := ih (processed ++ [v]) (nearestStep ro rd maxD acc v) h1
      rw [List.append_assoc] at h2
      simpa using h2

theorem v3_distTo_self (a : V3) : V3.distTo a a = 0 := by
  unfold V3.distTo V3.len V3.sub V3.normSq
  simp

/-- C10: the scan returns `none` exactly when no spawned vertex has a
non-negative projection and perpendicular distance strictly below
`maxDistance`; otherwise it returns a qualifying vertex whose along-ray
projection is minimal among all qualifying vertices (not the smallest
perpendicular distance), together with its position and that projection
length. -/
theorem find_nearest_vertex_characterisation (ro rd : V3) (maxD : ℝ)
    (vs : List RayVertex) :
    (findNearestVertex ro rd maxD vs = none ↔
      ∀ v ∈ vs, ¬ qualifiesRay ro rd maxD v) ∧
    (∀ (i : ℕ) (p : V3) (d : ℚ),
      findNearestVertex ro rd maxD vs = some (i, p, d) →
      ∃ v ∈ vs, v.idx = i ∧ v.pos = p ∧ qualifiesRay ro rd maxD v ∧
        d = (v.pos.sub ro).dot rd ∧
        ∀ u ∈ vs, qualifiesRay ro rd maxD u →
          d ≤ (u.pos.sub ro).dot rd) := by
  have hinv := nearest_fold_inv ro rd maxD vs [] none (by simp [nearestInv])
  simp only [List.nil_append] at hinv
  constructor
  · constructor
    · intro hnone
      unfold findNearestVertex at hnone
      rw [hnone] at hinv
      simp only [nearestInv] at hinv
      exact hinv
    · intro hall
      rcases hres : findNearestVertex ro rd maxD vs with _ | x
      · rfl
      · obtain ⟨i, p, d⟩ := x
        unfold findNearestVertex at hres
        rw [hres] at hinv
        simp only [nearestInv] at hinv
        obtain ⟨⟨w, hw, _, _, hq, _⟩, _⟩ := hinv
        exact absurd hq (hall w hw)
  · intro i p d hsome
    unfold findNearestVertex at hsome
    rw [hsome] at hinv
    simp only [nearestInv] at hinv
    obtain ⟨⟨w, hw, h1, h2, h3, h4⟩, hmin⟩ := hinv
    exact ⟨w, hw, h1, h2, h3, h4, fun u hu hq => hmin u hu hq⟩

/-- Witness for C10: a single spawned vertex on the ray at projection 2
is found, and it indeed qualifies. -/
theorem find_nearest_vertex_characterisation_witness :
    findNearestVertex ⟨0,0,0⟩ ⟨0,0,1⟩ 1 [⟨7, ⟨0,0,2⟩, true⟩] =
      some (7, ⟨0,0,2⟩, 2) ∧
    qualifiesRay ⟨0,0,0⟩ ⟨0,0,1⟩ 1 ⟨7, ⟨0,0,2⟩, true⟩ := by
  have hpoint : (⟨0,0,0⟩ : V3).add
      (V3.smul (((⟨0,0,2⟩ : V3).sub ⟨0,0,0⟩).dot ⟨0,0,1⟩) ⟨0,0,1⟩) =
      (⟨0,0,2⟩ : V3) := by
    norm_num [V3.add, V3.smul, V3.sub, V3.dot, V3.mk.injEq]
  have hdist : V3.distTo ⟨0,0,2⟩ ((⟨0,0,0⟩ : V3).add
      (V3.smul (((⟨0,0,2⟩ : V3).sub ⟨0,0,0⟩).dot ⟨0,0,1⟩) ⟨0,0,1⟩)) < 1 := by
    rw [hpoint, v3_distTo_self]
    norm_num
  have hstep : nearestStep ⟨0,0,0⟩ ⟨0,0,1⟩ 1 none ⟨7, ⟨0,0,2⟩, true⟩ =
      some (7, ⟨0,0,2⟩, 2) := by
    unfold nearestStep
    rw [if_pos rfl, if_neg (by norm_num [V3.sub, V3.dot]),
      if_pos ⟨hdist, trivial⟩]
    norm_num [V3.sub, V3.dot]
  have hfind : findNearestVertex ⟨0,0,0⟩ ⟨0,0,1⟩ 1 [⟨7, ⟨0,0,2⟩, true⟩] =
      some (7, ⟨0,0,2⟩, 2) := by
    unfold findNearestVertex
    simp only [List.foldl]
    exact hstep
  refine ⟨hfind, ?_⟩
  obtain ⟨v, hv, hidx, hpos, hq, hd, hmin⟩ :=
    (find_nearest_vertex_characterisation ⟨0,0,0⟩ ⟨0,0,1⟩ 1
      [⟨7, ⟨0,0,2⟩, true⟩]).2 7 ⟨0,0,2⟩ 2 hfind
  rw [List.mem_singleton] at hv
  exact hv ▸ hq
